import Mathlib

/-!
Verification of the abalone preprocessing script
(pipelines/abalone/preprocess.py).

The script downloads a headerless CSV, applies a column transformer
(median imputation + standardization for the seven numeric features,
constant imputation + one-hot encoding for the categorical "sex"
feature), prepends the label column, shuffles, splits 70/15/15 and
writes the three partitions; finally it registers a feature group and
ingests one record.

The embedding below models:
  * the split cut points, exactly as computed by the script, namely
    int(0.7 * n) and int(0.85 * n) in IEEE-754 binary64 arithmetic
    (0.7 and 0.85 denote the nearest binary64 values, the products are
    rounded to nearest, ties to even);
  * the three-way np.split on a list of rows;
  * the bucket/key extraction from the --input-data argument;
  * the fitted column transformer (imputation statistics, scaling
    parameters, category vocabulary) and its application;
  * the feature-definition list and the record passed to put_record.
-/

/-! ### Binary64 model of the split cut points

The script computes the cut indices as int(0.7 * len(X)) and
int(0.85 * len(X)).  In binary64, 0.7 is the rational
3152519739159347 / 2^52 and 0.85 is 7656119366529843 / 2^53.  The
product 0.7 * float(n) is the nearest binary64 to that exact rational
product; `rnd53` rounds an integer numerator to 53 significant bits
(round to nearest, ties to even), which is exactly that rounding once
the value is written over a power-of-two denominator. -/

/-- Round a natural number to 53 significant binary digits, to nearest,
ties to even.  An integer below 2^53 is exact. -/
def rnd53 (p : ℕ) : ℕ :=
  if p < 2 ^ 53 then p
  else
    let s := p.log2 - 52
    let q := p / 2 ^ s
    let r := p % 2 ^ s
    let h := 2 ^ (s - 1)
    (if r < h then q else if h < r then q + 1 else if q % 2 = 0 then q else q + 1) * 2 ^ s

/-- Value of the Python expression int(0.7 * n): the binary64 product of
the double 0.7 = 3152519739159347/2^52 with float(n) = rnd53 n,
truncated toward zero. -/
def trainCut (n : ℕ) : ℕ := rnd53 (3152519739159347 * rnd53 n) / 2 ^ 52

/-- Value of the Python expression int(0.85 * n): the binary64 product of
the double 0.85 = 7656119366529843/2^53 with float(n) = rnd53 n,
truncated toward zero. -/
def valCut (n : ℕ) : ℕ := rnd53 (7656119366529843 * rnd53 n) / 2 ^ 53

/-- np.split(X, [i, j]) on a list of rows: the slices X[:i], X[i:j], X[j:]. -/
def npSplitAt (i j : ℕ) (X : List α) : List α × List α × List α :=
  (X.take i, (X.drop i).take (j - i), X.drop j)

/-- The script's splitter: np.split(X, [int(0.7*len(X)), int(0.85*len(X))]). -/
def npSplit (X : List α) : List α × List α × List α :=
  npSplitAt (trainCut X.length) (valCut X.length) X

/-! Basic facts about `rnd53`. -/

theorem log2_eval (p k : ℕ) (h1 : 2 ^ k ≤ p) (h2 : p < 2 ^ (k + 1)) :
    Nat.log2 p = k := by
  rw [Nat.log2_eq_log_two]
  exact Nat.log_eq_of_pow_le_of_lt_pow h1 h2

theorem rnd53_zero : rnd53 0 = 0 := by norm_num [rnd53]

/-- In the rounding branch, the shift exponent recovers the leading
power of two: 2^(s + 52) = 2^(log2 p) ≤ p. -/
theorem pow_shift_le (p : ℕ) (hp : ¬ p < 2 ^ 53) : 2 ^ (p.log2 - 52 + 52) ≤ p := by
  have hp0 : p ≠ 0 := by
    intro h
    exact hp (by simp [h])
  have h53 : 53 ≤ p.log2 := by
    rw [Nat.log2_eq_log_two]
    exact Nat.le_log_of_pow_le (by norm_num) (le_of_not_lt hp)
  have : p.log2 - 52 + 52 = p.log2 := by omega
  rw [this]
  exact Nat.log2_self_le hp0

/-- Upper bound: rounding adds at most one unit in the last place,
2^s ≤ p / 2^52, stated multiplied out. -/
theorem rnd53_le (p : ℕ) : rnd53 p * 2 ^ 52 ≤ p * 2 ^ 52 + p := by
  rw [rnd53]
  split
  · nlinarith [Nat.zero_le p]
  · rename_i hp
    set s := p.log2 - 52 with hs
    have hq : p / 2 ^ s * 2 ^ s ≤ p := Nat.div_mul_le_self p (2 ^ s)
    have hpow : 2 ^ s * 2 ^ 52 ≤ p := by
      have := pow_shift_le p hp
      rwa [pow_add] at this
    simp only []
    split
    · nlinarith
    · split
      · nlinarith
      · split <;> nlinarith

/-- Lower bound: rounding never moves below p - 2^s, and 2^s ≤ p / 2^52,
stated multiplied out and without subtraction. -/
theorem le_rnd53 (p : ℕ) : p * 2 ^ 52 ≤ rnd53 p * 2 ^ 52 + p := by
  rw [rnd53]
  split
  · nlinarith [Nat.zero_le p]
  · rename_i hp
    set s := p.log2 - 52 with hs
    have hmod : 2 ^ s * (p / 2 ^ s) + p % 2 ^ s = p := Nat.div_add_mod p (2 ^ s)
    have hr : p % 2 ^ s < 2 ^ s := Nat.mod_lt p (by positivity)
    have hpow : 2 ^ s * 2 ^ 52 ≤ p := by
      have := pow_shift_le p hp
      rwa [pow_add] at this
    have hrp : p % 2 ^ s * 2 ^ 52 ≤ p := by
      calc p % 2 ^ s * 2 ^ 52 ≤ 2 ^ s * 2 ^ 52 :=
            Nat.mul_le_mul_right _ (le_of_lt hr)
        _ ≤ p := hpow
    simp only []
    split
    · nlinarith
    · split
      · nlinarith
      · split <;> nlinarith

/-- The train cut never exceeds the validation cut. -/
theorem trainCut_le_valCut (n : ℕ) : trainCut n ≤ valCut n := by
  rw [trainCut, valCut]
  set m := rnd53 n with hm
  set A := 3152519739159347 * m with hA
  set B := 7656119366529843 * m with hB
  set P := rnd53 A with hP
  set Q := rnd53 B with hQ
  have h1 : P * 2 ^ 52 ≤ A * 2 ^ 52 + A := rnd53_le A
  have h2 : B * 2 ^ 52 ≤ Q * 2 ^ 52 + B := le_rnd53 B
  have key : 2 * (A * 2 ^ 52 + A) + B ≤ B * 2 ^ 52 := by
    rw [hA, hB]
    nlinarith [Nat.zero_le m]
  have h2P : 2 * P ≤ Q := by
    have : 2 * P * 2 ^ 52 ≤ Q * 2 ^ 52 := by nlinarith
    exact Nat.le_of_mul_le_mul_right this (by positivity)
  calc P / 2 ^ 52 = 2 * P / 2 ^ 53 := by
        rw [show (2 : ℕ) ^ 53 = 2 * 2 ^ 52 by ring, Nat.mul_div_mul_left _ _ (by norm_num)]
    _ ≤ Q / 2 ^ 53 := Nat.div_le_div_right h2P

/-- The validation cut never exceeds the row count. -/
theorem valCut_le (n : ℕ) : valCut n ≤ n := by
  rw [valCut]
  set m := rnd53 n with hm
  set B := 7656119366529843 * m with hB
  set Q := rnd53 B with hQ
  have hmn : m * 2 ^ 52 ≤ n * 2 ^ 52 + n := rnd53_le n
  have h2 : Q * 2 ^ 52 ≤ B * 2 ^ 52 + B := rnd53_le B
  have hQn : Q ≤ n * 2 ^ 53 := by
    have h3 : Q * 2 ^ 52 * 2 ^ 52 ≤ 7656119366529843 * (n * 2 ^ 52 + n) * (2 ^ 52 + 1) := by
      have : B * 2 ^ 52 + B = B * (2 ^ 52 + 1) := by ring
      have hB1 : B * (2 ^ 52 + 1) * 2 ^ 52 = 7656119366529843 * (m * 2 ^ 52) * (2 ^ 52 + 1) := by
        rw [hB]; ring
      nlinarith [Nat.mul_le_mul_right ((2:ℕ) ^ 52 + 1)
        (Nat.mul_le_mul_left 7656119366529843 hmn)]
    have h4 : 7656119366529843 * (n * 2 ^ 52 + n) * (2 ^ 52 + 1) ≤ n * 2 ^ 53 * 2 ^ 52 * 2 ^ 52 := by
      nlinarith [Nat.zero_le n]
    have h5 : Q * 2 ^ 52 * 2 ^ 52 ≤ n * 2 ^ 53 * 2 ^ 52 * 2 ^ 52 := le_trans h3 h4
    have := Nat.le_of_mul_le_mul_right h5 (show 0 < 2 ^ 52 by positivity)
    exact Nat.le_of_mul_le_mul_right this (by positivity)
  calc Q / 2 ^ 53 ≤ n * 2 ^ 53 / 2 ^ 53 := Nat.div_le_div_right hQn
    _ = n := Nat.mul_div_cancel n (by positivity)

/-! Concrete evaluations of the cut points. -/

theorem trainCut_zero : trainCut 0 = 0 := by norm_num [trainCut, rnd53]

theorem valCut_zero : valCut 0 = 0 := by norm_num [valCut, rnd53]

theorem trainCut_one : trainCut 1 = 0 := by norm_num [trainCut, rnd53]

theorem valCut_one : valCut 1 = 0 := by norm_num [valCut, rnd53]

theorem rnd53_ninety : rnd53 90 = 90 := by norm_num [rnd53]

/-- The binary64 product 0.7 * 90 is 8866461766385663 / 2^47, just below
63, so the code's train cut at ninety rows is 62, not 63. -/
theorem trainCut_ninety : trainCut 90 = 62 := by
  have hl : Nat.log2 (3152519739159347 * 90) = 57 :=
    log2_eval _ _ (by norm_num) (by norm_num)
  rw [trainCut, rnd53_ninety, rnd53]
  norm_num [hl]

/-- Splitting is by list slicing: the three blocks laid end to end are
the shuffled input, provided the first cut is below the second. -/
theorem npSplitAt_concat {α : Type} (X : List α) (i j : ℕ) (hij : i ≤ j) :
    (npSplitAt i j X).1 ++ (npSplitAt i j X).2.1 ++ (npSplitAt i j X).2.2 = X := by
  rw [npSplitAt]
  have hdrop : (X.drop i).drop (j - i) = X.drop j := by
    rw [List.drop_drop]
    congr 1
    omega
  calc X.take i ++ (X.drop i).take (j - i) ++ X.drop j
      = X.take i ++ ((X.drop i).take (j - i) ++ (X.drop i).drop (j - i)) := by
        rw [hdrop, List.append_assoc]
    _ = X.take i ++ X.drop i := by rw [List.take_append_drop]
    _ = X := List.take_append_drop i X

theorem npSplit_concat {α : Type} (X : List α) :
    (npSplit X).1 ++ (npSplit X).2.1 ++ (npSplit X).2.2 = X :=
  npSplitAt_concat X _ _ (trainCut_le_valCut X.length)

/-- C2 (amended): for every input list the three blocks have sizes
exactly trainCut n, valCut n - trainCut n and n - valCut n, where the
cuts are the binary64 values int(0.7*n) and int(0.85*n); the sizes sum
to n. -/
theorem c2_split_sizes {α : Type} (X : List α) :
    (npSplit X).1.length = trainCut X.length ∧
    (npSplit X).2.1.length = valCut X.length - trainCut X.length ∧
    (npSplit X).2.2.length = X.length - valCut X.length ∧
    (npSplit X).1.length + (npSplit X).2.1.length + (npSplit X).2.2.length
      = X.length := by
  have hij := trainCut_le_valCut X.length
  have hjn := valCut_le X.length
  have hin : trainCut X.length ≤ X.length := le_trans hij hjn
  have e1 : (npSplit X).1.length = trainCut X.length := by
    rw [npSplit, npSplitAt]
    simp only [List.length_take]
    exact min_eq_left hin
  have e2 : (npSplit X).2.1.length = valCut X.length - trainCut X.length := by
    rw [npSplit, npSplitAt]
    simp only [List.length_take, List.length_drop]
    exact min_eq_left (Nat.sub_le_sub_right hjn _)
  have e3 : (npSplit X).2.2.length = X.length - valCut X.length := by
    rw [npSplit, npSplitAt]
    simp only [List.length_drop]
  exact ⟨e1, e2, e3, by rw [e1, e2, e3]; omega⟩

/-- C2 (counterexample): at ninety rows the code's train block has 62
rows, while the exact rational product 0.7 * 90 is exactly 63, so the
claimed size floor(0.7 n) over exact rationals is 63. -/
theorem c2_counterexample :
    (npSplit (List.range 90)).1.length = 62 ∧ (0.7 : ℚ) * 90 = 63 := by
  constructor
  · rw [npSplit, npSplitAt]
    simp [List.length_take, trainCut_ninety]
  · norm_num

/-- C3: the three blocks laid end to end are exactly the shuffled list;
hence for any shuffle (any permutation of the input) every input row
appears exactly once across the three partitions. -/
theorem c3_split_permutation {α : Type} (orig shuffled : List α)
    (h : shuffled.Perm orig) :
    ((npSplit shuffled).1 ++ (npSplit shuffled).2.1 ++ (npSplit shuffled).2.2).Perm
      orig := by
  rw [npSplit_concat]
  exact h

theorem c3_witness :
    (([2, 1, 3] : List ℕ).Perm [1, 2, 3]) ∧
    (((npSplit ([2, 1, 3] : List ℕ)).1 ++ (npSplit ([2, 1, 3] : List ℕ)).2.1 ++
      (npSplit ([2, 1, 3] : List ℕ)).2.2).Perm [1, 2, 3]) :=
  ⟨by decide, c3_split_permutation [1, 2, 3] [2, 1, 3] (by decide)⟩

/-- C10: the splitter is total and on degenerate inputs behaves as the
slicing semantics dictates: no rows gives three empty blocks, one row
gives empty train and validation blocks and the row in the test block. -/
theorem c10_split_degenerate {α : Type} (x : α) :
    npSplit ([] : List α) = ([], [], []) ∧ npSplit [x] = ([], [], [x]) := by
  constructor
  · rw [npSplit, npSplitAt]
    simp
  · rw [npSplit, npSplitAt]
    simp [trainCut_one, valCut_one]

/-! ### Bucket and key extraction from the --input-data argument

The script computes
  bucket = input_data.split("/")[2]
  key    = "/".join(input_data.split("/")[3:])
modelled here on lists of characters.  `splitSlash` is Python's
str.split("/") and `joinSlash` is "/".join. -/

/-- Python str.split("/"): splits on every slash, keeping empty pieces;
the empty string yields one empty piece. -/
def splitSlash : List Char → List (List Char)
  | [] => [[]]
  | c :: rest =>
    if c = '/' then [] :: splitSlash rest
    else
      match splitSlash rest with
      | [] => [[c]]
      | p :: ps => (c :: p) :: ps

/-- Python "/".join. -/
def joinSlash : List (List Char) → List Char
  | [] => []
  | [p] => p
  | p :: q :: ps => p ++ '/' :: joinSlash (q :: ps)

/-- The bucket the script downloads from: the third slash-separated
segment of the argument; none when the argument has fewer than three
segments (Python raises IndexError there). -/
def bucketOf (s : List Char) : Option (List Char) := (splitSlash s)[2]?

/-- The object key the script downloads: the fourth and later
slash-separated segments of the argument, joined by slashes. -/
def keyOf (s : List Char) : List Char := joinSlash ((splitSlash s).drop 3)

theorem splitSlash_ne_nil (l : List Char) : splitSlash l ≠ [] := by
  cases l with
  | nil => simp [splitSlash]
  | cons c rest =>
    rw [splitSlash]
    split
    · simp
    · split <;> simp

/-- Splitting a string that starts with a slash-free piece followed by a
slash peels off that piece. -/
theorem splitSlash_append (a rest : List Char) (h : '/' ∉ a) :
    splitSlash (a ++ '/' :: rest) = a :: splitSlash rest := by
  induction a with
  | nil => simp [splitSlash]
  | cons c a' ih =>
    have hc : ¬ c = '/' := by
      intro hc
      exact h (by simp [hc])
    have h' : '/' ∉ a' := by
      intro hmem
      exact h (by simp [hmem])
    rw [List.cons_append, splitSlash, if_neg hc, ih h']

/-- Joining the pieces of a split recovers the original string. -/
theorem joinSlash_splitSlash (l : List Char) : joinSlash (splitSlash l) = l := by
  induction l with
  | nil => simp [splitSlash, joinSlash]
  | cons c rest ih =>
    rw [splitSlash]
    split
    · rename_i hc
      have hne := splitSlash_ne_nil rest
      obtain ⟨p, ps, hps⟩ := List.exists_cons_of_ne_nil hne
      rw [hps] at ih ⊢
      rw [joinSlash, hc]
      simpa using ih
    · rename_i hc
      have hne := splitSlash_ne_nil rest
      obtain ⟨p, ps, hps⟩ := List.exists_cons_of_ne_nil hne
      rw [hps] at ih ⊢
      cases ps with
      | nil =>
        rw [joinSlash] at ih ⊢
        simp [ih]
      | cons q qs =>
        rw [joinSlash] at ih ⊢
        rw [List.cons_append, ih]

/-- C8 (amended): for an argument of the form scheme//bucket/key, with
scheme and bucket slash-free (as in an s3:// URI, where the first two
segments are "s3:" and the empty piece between the double slashes), the
script extracts the bucket and the key exactly. -/
theorem c8_bucket_key (scheme bucket key : List Char)
    (hs : '/' ∉ scheme) (hb : '/' ∉ bucket) :
    bucketOf (scheme ++ ('/' :: '/' :: (bucket ++ ('/' :: key)))) = some bucket ∧
    keyOf (scheme ++ ('/' :: '/' :: (bucket ++ ('/' :: key)))) = key := by
  have hsplit : splitSlash (scheme ++ ('/' :: '/' :: (bucket ++ ('/' :: key))))
      = scheme :: [] :: bucket :: splitSlash key := by
    rw [splitSlash_append scheme ('/' :: (bucket ++ ('/' :: key))) hs]
    have h0 : ('/' :: (bucket ++ ('/' :: key)) : List Char)
        = [] ++ ('/' :: (bucket ++ ('/' :: key))) := by simp
    rw [h0, splitSlash_append [] (bucket ++ ('/' :: key)) (by simp),
      splitSlash_append bucket key hb]
  constructor
  · rw [bucketOf, hsplit]
    simp
  · rw [keyOf, hsplit]
    have hdrop : (scheme :: [] :: bucket :: splitSlash key).drop 3 = splitSlash key := rfl
    rw [hdrop]
    exact joinSlash_splitSlash key

theorem c8_witness :
    ('/' ∉ "s3:".toList) ∧ ('/' ∉ "mybucket".toList) ∧
    bucketOf ("s3:".toList ++ ('/' :: '/' :: ("mybucket".toList ++ ('/' :: "data/abalone.csv".toList))))
      = some "mybucket".toList ∧
    keyOf ("s3:".toList ++ ('/' :: '/' :: ("mybucket".toList ++ ('/' :: "data/abalone.csv".toList))))
      = "data/abalone.csv".toList :=
  ⟨by decide, by decide,
    (c8_bucket_key "s3:".toList "mybucket".toList "data/abalone.csv".toList
      (by decide) (by decide)).1,
    (c8_bucket_key "s3:".toList "mybucket".toList "data/abalone.csv".toList
      (by decide) (by decide)).2⟩

/-- C8 (counterexample): on an argument of the literal claimed form
scheme/bucket/key with a slash-free scheme, the script takes the key
segment as the bucket: for "s3/mybucket/data.csv" it uses "data.csv" as
the bucket, not "mybucket". -/
theorem c8_counterexample :
    bucketOf "s3/mybucket/data.csv".toList = some "data.csv".toList ∧
    some "data.csv".toList ≠ some "mybucket".toList := by
  constructor
  · decide
  · decide

/-! ### The feature-engineering pipeline

Schema and transformers, mirroring the script: numeric columns go
through SimpleImputer(strategy="median") then StandardScaler();
the "sex" column goes through SimpleImputer(strategy="constant",
fill_value="missing") then OneHotEncoder(handle_unknown="ignore").
Numeric cell values are modelled as rationals (missing = none); the
standardized output lives in the reals because StandardScaler divides
by the square root of the variance. -/

def feature_columns_names : List String :=
  ["sex", "length", "diameter", "height", "whole_weight",
   "shucked_weight", "viscera_weight", "shell_weight"]

def label_column : String := "rings"

/-- numeric_features = list(feature_columns_names); remove("sex"). -/
def numeric_features : List String := feature_columns_names.erase "sex"

def categorical_features : List String := ["sex"]

/-- One row of the raw table after the label pop: the "sex" cell and the
seven numeric feature cells (in `numeric_features` order, missing cells
are none), together with the popped label value. -/
structure RawRow where
  sex : Option String
  nums : List (Option ℚ)
  rings : ℚ

/-- The non-missing entries of a column, in order. -/
def nonMissing (col : List (Option ℚ)) : List ℚ := col.filterMap id

/-- np.median on the given values: middle element of the sorted list for
odd length, average of the two middle elements for even length. -/
def npMedian (l : List ℚ) : ℚ :=
  let s := l.insertionSort (· ≤ ·)
  if s.length % 2 = 1 then s.getD (s.length / 2) 0
  else (s.getD (s.length / 2 - 1) 0 + s.getD (s.length / 2) 0) / 2

def listMean (l : List ℚ) : ℚ := l.sum / l.length

/-- Population variance (ddof = 0), as StandardScaler computes it. -/
def listVar (l : List ℚ) : ℚ := ((l.map (fun x => (x - listMean l) ^ 2)).sum) / l.length

/-- Fitted state of the numeric pipeline for one column: the imputer's
statistic (the median of the non-missing fit values) and the scaler's
mean and variance, both computed on the imputed fit column. -/
structure NumStats where
  median : ℚ
  mean : ℚ
  var : ℚ

/-- SimpleImputer(strategy="median") applied to its own fit column:
every missing cell becomes the median of the non-missing cells. -/
def imputedCol (col : List (Option ℚ)) : List ℚ :=
  col.map (fun x => x.getD (npMedian (nonMissing col)))

def fitNum (col : List (Option ℚ)) : NumStats :=
  { median := npMedian (nonMissing col),
    mean := listMean (imputedCol col),
    var := listVar (imputedCol col) }

/-- StandardScaler's scale_: the square root of the variance, with an
exact zero replaced by one. -/
noncomputable def stdScale (v : ℚ) : ℝ := if v = 0 then 1 else Real.sqrt (v : ℝ)

/-- Applying the fitted numeric pipeline to one cell: impute with the
fitted median, subtract the fitted mean, divide by the fitted scale. -/
noncomputable def applyNumOne (st : NumStats) (x : Option ℚ) : ℝ :=
  (((x.getD st.median : ℚ) : ℝ) - (st.mean : ℚ)) / stdScale st.var

/-- Applying the fitted numeric pipeline to a whole column. -/
noncomputable def applyNumCol (st : NumStats) (col : List (Option ℚ)) : List ℝ :=
  col.map (applyNumOne st)

/-- The categorical imputer: a missing cell becomes the constant
placeholder "missing". -/
def imputeSex (x : Option String) : String := x.getD "missing"

/-- OneHotEncoder's fitted vocabulary: the distinct imputed values,
sorted (np.unique order). -/
def fitCats (col : List (Option String)) : List String :=
  ((col.map imputeSex).dedup).insertionSort (· ≤ ·)

/-- One-hot encoding of one value against the fitted vocabulary; an
unknown value matches no category (handle_unknown="ignore"). -/
def oneHot (cats : List String) (v : String) : List ℝ :=
  cats.map (fun c => if c = v then (1 : ℝ) else 0)

/-- Fitted state of the whole ColumnTransformer. -/
structure FitStats where
  numStats : List NumStats
  cats : List String

def numColumn (t : List RawRow) (j : ℕ) : List (Option ℚ) :=
  t.map (fun r => r.nums.getD j none)

def sexColumn (t : List RawRow) : List (Option String) := t.map (fun r => r.sex)

def labelColumn (t : List RawRow) : List ℚ := t.map (fun r => r.rings)

/-- Fitting the ColumnTransformer: one numeric fit per numeric feature
column, plus the categorical vocabulary. -/
def fitPreprocess (t : List RawRow) : FitStats :=
  { numStats := (List.range numeric_features.length).map (fun j => fitNum (numColumn t j)),
    cats := fitCats (sexColumn t) }

/-- Applying the fitted ColumnTransformer to one row: the transformed
numeric block (in numeric_features order) followed by the one-hot block. -/
noncomputable def transformRow (s : FitStats) (r : RawRow) : List ℝ :=
  List.zipWith applyNumOne s.numStats r.nums ++ oneHot s.cats (imputeSex r.sex)

/-- X_pre = preprocess.transform(df) row by row. -/
noncomputable def preprocessTransform (s : FitStats) (t : List RawRow) : List (List ℝ) :=
  t.map (transformRow s)

/-- X = np.concatenate((y_pre, X_pre), axis=1) with
X_pre = preprocess.fit_transform(df): the label column prepended to the
transformed feature matrix. -/
noncomputable def buildMatrix (t : List RawRow) : List (List ℝ) :=
  List.zipWith (fun y row => ((y : ℚ) : ℝ) :: row)
    (labelColumn t) (preprocessTransform (fitPreprocess t) t)

/-- sklearn transform takes the fitted state and the data and returns
the output; the fitted state it hands back to the caller is untouched. -/
noncomputable def applyFitted (s : FitStats) (t : List RawRow) : List (List ℝ) × FitStats :=
  (preprocessTransform s t, s)

/-- Every row carries exactly the seven declared numeric feature cells. -/
def WellFormed (t : List RawRow) : Prop := ∀ r ∈ t, r.nums.length = 7

/-- No cell of the table is missing. -/
def NoMissing (t : List RawRow) : Prop :=
  ∀ r ∈ t, r.sex.isSome = true ∧ ∀ x ∈ r.nums, x.isSome = true

/-! Lemmas about the pipeline. -/

theorem zipWith_map_same {α β γ δ : Type} (f : β → γ → δ) (g : α → β) (h : α → γ)
    (t : List α) :
    List.zipWith f (t.map g) (t.map h) = t.map (fun r => f (g r) (h r)) := by
  induction t with
  | nil => rfl
  | cons r t ih => simp [ih]

theorem buildMatrix_eq_map (t : List RawRow) :
    buildMatrix t = t.map (fun r => ((r.rings : ℚ) : ℝ) :: transformRow (fitPreprocess t) r) := by
  rw [buildMatrix, labelColumn, preprocessTransform]
  exact zipWith_map_same _ _ _ t

theorem numStats_length (t : List RawRow) : (fitPreprocess t).numStats.length = 7 := by
  rw [fitPreprocess]
  simp [numeric_features, feature_columns_names]

theorem fitCats_length (col : List (Option String)) :
    (fitCats col).length = ((col.map imputeSex).dedup).length :=
  (List.perm_insertionSort _ _).length_eq

/-- With no missing sex cell, imputation is the identity and the imputed
sex column is exactly the list of observed categories. -/
theorem sexColumn_no_missing (t : List RawRow)
    (hm : ∀ r ∈ t, r.sex.isSome = true) :
    (sexColumn t).map imputeSex = t.filterMap (fun r => r.sex) := by
  induction t with
  | nil => rfl
  | cons r t ih =>
    obtain ⟨v, hv⟩ := Option.isSome_iff_exists.mp (hm r (List.mem_cons_self r t))
    have ht : ∀ q ∈ t, q.sex.isSome = true := fun q hq => hm q (List.mem_cons_of_mem r hq)
    simp [sexColumn, imputeSex, hv, List.filterMap_cons] at ih ⊢
    exact ih ht

/-- C4: with no missing values, the transformed matrix keeps the row
count and every row has 1 + 7 + k entries, where k is the number of
distinct categories observed in the sex column at fit time. -/
theorem c4_matrix_shape (t : List RawRow) (hw : WellFormed t) (hm : NoMissing t)
    (hn : 0 < t.length) :
    (buildMatrix t).length = t.length ∧
    ∀ row ∈ buildMatrix t,
      row.length = 1 + 7 + ((t.filterMap (fun r => r.sex)).dedup).length := by
  constructor
  · rw [buildMatrix_eq_map, List.length_map]
  · intro row hrow
    rw [buildMatrix_eq_map] at hrow
    obtain ⟨r, hr, rfl⟩ := List.mem_map.mp hrow
    have hk : (fitPreprocess t).cats.length
        = ((t.filterMap (fun r => r.sex)).dedup).length := by
      rw [fitPreprocess]
      simp only []
      rw [fitCats_length, sexColumn_no_missing t (fun q hq => (hm q hq).1)]
    simp only [List.length_cons, transformRow, List.length_append, List.length_zipWith,
      oneHot, List.length_map, numStats_length, hw r hr, hk]
    omega

/-- C5: a fitted transformer applied to a row whose category was not in
the fit vocabulary produces an all-zero one-hot block (and is total: no
error path exists). -/
theorem c5_unknown_category (s : FitStats) (r : RawRow) (v : String)
    (hv : r.sex = some v) (hnc : v ∉ s.cats) :
    transformRow s r
      = List.zipWith applyNumOne s.numStats r.nums
        ++ List.replicate s.cats.length (0 : ℝ) := by
  rw [transformRow]
  congr 1
  rw [imputeSex, hv, Option.getD_some]
  refine List.eq_replicate.mpr ⟨by rw [oneHot, List.length_map], ?_⟩
  intro b hb
  rw [oneHot] at hb
  obtain ⟨c, hc, rfl⟩ := List.mem_map.mp hb
  rw [if_neg]
  intro he
  exact hnc (he ▸ hc)

theorem c5_witness :
    ((⟨some "I", [], 0⟩ : RawRow).sex = some "I") ∧
    ("I" ∉ (⟨[], ["F", "M"]⟩ : FitStats).cats) ∧
    transformRow ⟨[], ["F", "M"]⟩ ⟨some "I", [], 0⟩
      = List.zipWith applyNumOne ([] : List NumStats) ([] : List (Option ℚ))
        ++ List.replicate 2 (0 : ℝ) :=
  ⟨rfl, by decide, c5_unknown_category ⟨[], ["F", "M"]⟩ ⟨some "I", [], 0⟩ "I" rfl (by decide)⟩

/-- C6: for a numeric column (with at least one non-missing fit value),
the fitted pipeline's output at every index is the imputed cell minus
the fit mean, divided by the fit scale; the imputed cell is the median
of the non-missing fit values exactly when the cell was missing, and
the original value otherwise. -/
theorem c6_numeric_pipeline (col : List (Option ℚ)) (i : ℕ)
    (hi : i < col.length) (hnm : nonMissing col ≠ []) :
    (applyNumCol (fitNum col) col)[i]? = some
      ((((imputedCol col).getD i 0 : ℚ) - ((listMean (imputedCol col) : ℚ) : ℝ))
        / stdScale (listVar (imputedCol col))) ∧
    (col[i]? = some none → (imputedCol col).getD i 0 = npMedian (nonMissing col)) ∧
    (∀ x : ℚ, col[i]? = some (some x) → (imputedCol col).getD i 0 = x) := by
  obtain ⟨c, hc⟩ : ∃ c, col[i]? = some c := ⟨col[i], List.getElem?_eq_getElem hi⟩
  have himp : (imputedCol col).getD i 0 = c.getD (npMedian (nonMissing col)) := by
    simp only [imputedCol, List.getD, List.get?_eq_getElem?, List.getElem?_map, hc,
      Option.map_some', Option.getD_some]
  refine ⟨?_, ?_, ?_⟩
  · rw [applyNumCol, List.getElem?_map, hc, himp]
    simp only [Option.map_some', applyNumOne, fitNum]
  · intro hnone
    rw [hc] at hnone
    have hcn : c = none := by injection hnone
    rw [himp, hcn, Option.getD_none]
  · intro x hx
    rw [hc] at hx
    have hcx : c = some x := by injection hx
    rw [himp, hcx, Option.getD_some]

theorem c6_witness :
    (1 < ([some 1, none, some 3] : List (Option ℚ)).length) ∧
    (nonMissing [some 1, none, some 3] ≠ []) ∧
    ((applyNumCol (fitNum [some 1, none, some 3]) [some 1, none, some 3])[1]? = some
      ((((imputedCol [some 1, none, some 3]).getD 1 0 : ℚ)
          - ((listMean (imputedCol [some 1, none, some 3]) : ℚ) : ℝ))
        / stdScale (listVar (imputedCol [some 1, none, some 3])))) ∧
    (([some 1, none, some 3] : List (Option ℚ))[1]? = some none →
      (imputedCol [some 1, none, some 3]).getD 1 0
        = npMedian (nonMissing [some 1, none, some 3])) :=
  ⟨by norm_num, by decide,
    (c6_numeric_pipeline [some 1, none, some 3] 1 (by norm_num) (by decide)).1,
    (c6_numeric_pipeline [some 1, none, some 3] 1 (by norm_num) (by decide)).2.1⟩

/-- C7: applying an already-fitted transformer is a pure function of the
fitted statistics and the input; a second application with the
statistics handed back by the first yields the identical output, and
the statistics are unchanged. -/
theorem c7_transform_deterministic (s : FitStats) (t : List RawRow) :
    (applyFitted (applyFitted s t).2 t).1 = (applyFitted s t).1 ∧
    (applyFitted s t).2 = s :=
  ⟨rfl, rfl⟩

/-- C9: the transformed matrix puts the label first, then the seven
numeric features in schema order (numeric_features is the schema list
with sex removed, in declaration order), then the one-hot block over a
sorted duplicate-free category vocabulary. -/
theorem c9_column_layout (t : List RawRow) :
    numeric_features = ["length", "diameter", "height", "whole_weight",
      "shucked_weight", "viscera_weight", "shell_weight"] ∧
    buildMatrix t = t.map (fun r =>
      ((r.rings : ℚ) : ℝ) :: (List.zipWith applyNumOne (fitPreprocess t).numStats r.nums
        ++ oneHot (fitPreprocess t).cats (imputeSex r.sex))) ∧
    (fitPreprocess t).numStats
      = (List.range numeric_features.length).map (fun j => fitNum (numColumn t j)) ∧
    List.Sorted (· ≤ ·) (fitPreprocess t).cats ∧
    (fitPreprocess t).cats.Nodup := by
  refine ⟨by decide, ?_, rfl, ?_, ?_⟩
  · rw [buildMatrix_eq_map]
    rfl
  · exact List.sorted_insertionSort _ _
  · exact ((List.perm_insertionSort _ _).nodup_iff).mpr (List.nodup_dedup _)

/-! ### The feature-store calls

The script builds a fixed feature-definition list (the eight schema
features plus the synthetic EventTime field) and then calls put_record
with a hard-coded record. -/

structure FeatureDefEntry where
  featureName : String
  featureType : String
deriving DecidableEq

structure RecordEntry where
  featureName : String
  valueAsString : String
deriving DecidableEq

/-- The FeatureDefinitions list passed to create_feature_group. -/
def feature_definition : List FeatureDefEntry :=
  [⟨"sex", "String"⟩, ⟨"length", "Fractional"⟩, ⟨"diameter", "Fractional"⟩,
   ⟨"height", "Fractional"⟩, ⟨"whole_weight", "Fractional"⟩,
   ⟨"shucked_weight", "Fractional"⟩, ⟨"viscera_weight", "Fractional"⟩,
   ⟨"shell_weight", "Fractional"⟩, ⟨"EventTime", "Fractional"⟩]

/-- The Record argument passed to featurestore_runtime.put_record: a
literal list, independent of the downloaded data and of the computed
EventTime column. -/
def putRecordEntries : List RecordEntry :=
  [⟨"sex", "String"⟩, ⟨"length", "11"⟩, ⟨"diameter", "11"⟩, ⟨"height", "11"⟩,
   ⟨"whole_weight", "11"⟩, ⟨"shucked_weight", "11"⟩, ⟨"viscera_weight", "11"⟩,
   ⟨"shell_weight", "11"⟩, ⟨"EventTime", "11"⟩]

/-- C1: the ingested record covers exactly the declared feature names in
order, but its values are the fixed placeholders "String" and "11" for
every feature and for EventTime, not the run's raw feature values. -/
theorem c1_record_placeholders :
    putRecordEntries.map (fun e => e.featureName)
      = feature_definition.map (fun e => e.featureName) ∧
    putRecordEntries.map (fun e => e.valueAsString)
      = ["String", "11", "11", "11", "11", "11", "11", "11", "11"] := by
  constructor
  · rfl
  · rfl

theorem c4_witness :
    WellFormed [⟨some "M", [some 1, some 2, some 3, some 4, some 5, some 6, some 7], 9⟩] ∧
    NoMissing [⟨some "M", [some 1, some 2, some 3, some 4, some 5, some 6, some 7], 9⟩] ∧
    0 < ([⟨some "M", [some 1, some 2, some 3, some 4, some 5, some 6, some 7], 9⟩]
      : List RawRow).length ∧
    ((buildMatrix [⟨some "M", [some 1, some 2, some 3, some 4, some 5, some 6, some 7], 9⟩]).length
      = ([⟨some "M", [some 1, some 2, some 3, some 4, some 5, some 6, some 7], 9⟩]
          : List RawRow).length ∧
    ∀ row ∈ buildMatrix [⟨some "M", [some 1, some 2, some 3, some 4, some 5, some 6, some 7], 9⟩],
      row.length = 1 + 7 +
        ((([⟨some "M", [some 1, some 2, some 3, some 4, some 5, some 6, some 7], 9⟩]
            : List RawRow).filterMap (fun r => r.sex)).dedup).length) :=
  ⟨by
      intro r hr
      rw [List.mem_singleton] at hr
      subst hr
      rfl,
    by
      intro r hr
      rw [List.mem_singleton] at hr
      subst hr
      exact ⟨rfl, by decide⟩,
    by decide,
    c4_matrix_shape [⟨some "M", [some 1, some 2, some 3, some 4, some 5, some 6, some 7], 9⟩]
      (by
        intro r hr
        rw [List.mem_singleton] at hr
        subst hr
        rfl)
      (by
        intro r hr
        rw [List.mem_singleton] at hr
        subst hr
        exact ⟨rfl, by decide⟩)
      (by decide)⟩
